import Mathlib

/-!
# Verification of the `consensus` duplicate-read pipeline

Shallow embedding of the core of the `consensus` repository
(`src/ordered_rayon.rs`, `src/io.rs`, `src/duplicates.rs`, `src/index.rs`)
together with proofs about the embedded definitions.

Strings are embedded as `List Char`; byte strings as `List ℕ` (byte values);
machine integers as `ℕ` with explicit `% 2^32` where the Rust code performs
wrapping 32-bit arithmetic; `f64` values that no claim inspects numerically
are embedded as exact rationals (or scaled integers) and noted at the
definition site.
-/

namespace Consensus

/-! ## Records (`src/io.rs`)

`Record { id: String, seq: String, qual: String }`.  The `id` and `seq`
fields are embedded as `List Char`; `qual` is accessed by the source only
through `.as_bytes()`, so it is embedded directly as the list of its byte
values (`List ℕ`, each `< 256`). -/

structure Record where
  id : List Char
  seq : List Char
  qual : List ℕ
  deriving DecidableEq, Repr

/-- `Record::phred_quality` (src/io.rs:46-53): maps each quality byte `x`
to `(x as u32) - 33u32`.  There is no lower-bound check; in release mode
the `u32` subtraction wraps modulo `2^32` (in debug mode it panics), which
is what this embedding computes. -/
def Record.phredQuality (r : Record) : List ℕ :=
  r.qual.map (fun x => (x + 2 ^ 32 - 33) % 2 ^ 32)

/-- `Record::phred_quality_total` (src/io.rs:64-66): sum of the per-byte
scores. -/
def Record.phredQualityTotal (r : Record) : ℕ :=
  r.phredQuality.sum

/-- `Record::len` (src/io.rs:69-71). -/
def Record.len (r : Record) : ℕ :=
  r.seq.length

/-- `Record::phred_quality_avg` (src/io.rs:56-61): total over length,
rounded to two decimals.  The `f64` arithmetic is embedded as exact
rational arithmetic; the 2-dp rounding uses `round`, matching the Rust
`f64::round` of `qual * 100.0` for the nonnegative values that occur. -/
def Record.phredQualityAvg (r : Record) : ℚ :=
  (round (((r.phredQualityTotal : ℚ) / (r.len : ℚ)) * 100) : ℤ) / 100

/-! ## Record identifiers (`src/duplicates.rs`) -/

structure RecordIdentifier where
  head : List Char
  tail : List Char
  deriving DecidableEq, Repr

/-- `RecordIdentifier::from_string` (src/duplicates.rs:110-121):

```rust
let split_loc = match s.find('_') {
    Some(v) => v,
    None => s.len() - 1,
};
RecordIdentifier {
    head: s[..split_loc].to_string(),
    tail: s[(split_loc + 1)..].to_string(),
}
```

Note the `None` arm uses `s.len() - 1`, not `s.len()`.  (On the empty
string the Rust subtraction underflows and panics; the `ℕ` subtraction
here truncates to `0`, and the claims about this function are restricted
to non-empty inputs.) -/
def RecordIdentifier.fromString (s : List Char) : RecordIdentifier :=
  let splitLoc : ℕ :=
    match s.findIdx? (· = '_') with
    | some v => v
    | none => s.length - 1
  ⟨s.take splitLoc, s.drop (splitLoc + 1)⟩

/-- The `Display` impl for `RecordIdentifier` (src/duplicates.rs:85-97):
the `head` alone if `tail` is empty, otherwise `head ++ "_" ++ tail`. -/
def RecordIdentifier.render (i : RecordIdentifier) : List Char :=
  if i.tail.isEmpty then i.head else i.head ++ '_' :: i.tail

/-! ## The configuration check of `par_map_and_emit` (`src/ordered_rayon.rs`) -/

/-- `CacheTooSmallError` (src/ordered_rayon.rs:9-13). -/
structure CacheTooSmallError where
  threads : ℕ
  cacheSize : ℕ
  deriving DecidableEq, Repr

/-- Function-level embedding of `par_map_and_emit`
(src/ordered_rayon.rs:35-94).  The guard `if cache_size < threads` returns
the configuration error before the input iterator, `map`, or `emit` are
touched.  The value of the ok branch is the in-order image of the input:
literal for the `threads == 1` branch (`self.map(map).for_each(emit)`),
and established for the multi-threaded branch by the transition-system
theorems below (`PMap.terminal_trace_eq`). -/
def parMapAndEmit {α β : Type} (threads cacheSize : ℕ) (inputs : List α)
    (map : α → β) : Except CacheTooSmallError (List β) :=
  if cacheSize < threads then
    Except.error ⟨threads, cacheSize⟩
  else
    Except.ok (inputs.map map)

end Consensus

namespace Consensus.PMap

/-! ## The multi-threaded branch of `par_map_and_emit` as a transition system

`src/ordered_rayon.rs:52-91` (producers) and `recover_order`
(src/ordered_rayon.rs:97-132, the consumer).  Each enumerated input index
`i` moves through the stages

* `pending`  — not yet picked up by a rayon worker;
* `gated`    — the worker has observed `approved_to_emit ≥ i` (the spin
  loop at lines 75-82 has exited) but `tx.send((i, value))` has not
  happened yet;
* `sent`     — `(i, map(valueᵢ))` is in the `sync_channel`;
* `stored`   — the consumer has stored the value into
  `buffer[i % cache_size]` (line 111);
* `emitted`  — the consumer has passed the value to `emit` (line 125).

The consumer body for one received message (assert, store, drain the
contiguous run starting at `min_idx`, republish `approved_to_emit`) is a
single atomic transition: its intermediate states are invisible to
producers, which interact with it only through the single atomic store of
`approved_to_emit` performed at its end (line 128).  Message receipt is
modelled as picking *any* in-channel message, a superset of the FIFO
behaviour of `mpsc::sync_channel`; thread count is not bounded, a superset
of the at-most-`threads` concurrent workers rayon provides.  Safety
theorems proved over this model therefore hold for the real scheduler. -/

inductive PStatus
  | pending
  | gated
  | sent
  | stored
  | emitted
  deriving DecidableEq, Repr

/-- Global state: per-index stage, the consumer's circular `buffer`
(slot ↦ index of the value stored there), the published
`approved_to_emit` mark, the consumer's `min_idx`, and the list of
indices whose values have been passed to `emit`, in emission order. -/
@[ext]
structure State where
  status : ℕ → PStatus
  buffer : ℕ → Option ℕ
  approved : ℕ
  minIdx : ℕ
  trace : List ℕ

/-- Pointwise update of a status map. -/
def setSt (st : ℕ → PStatus) (i : ℕ) (v : PStatus) : ℕ → PStatus :=
  fun j => if j = i then v else st j

/-- Pointwise update of the buffer. -/
def setBuf (b : ℕ → Option ℕ) (v : ℕ) (x : Option ℕ) : ℕ → Option ℕ :=
  fun w => if w = v then x else b w

/-- Result of the consumer's drain loop. -/
structure DrainOut where
  status : ℕ → PStatus
  buffer : ℕ → Option ℕ
  minIdx : ℕ
  trace : List ℕ

/-- The drain loop of `recover_order` (src/ordered_rayon.rs:116-126):
`for v in min_idx..(min_idx + cache_size)` — at most `cache_size`
iterations (the fuel) — stopping at the first empty slot, otherwise
emitting the occupant of slot `min_idx % cache_size` and advancing
`min_idx`. -/
def drainGo (C : ℕ) : ℕ → (ℕ → PStatus) → (ℕ → Option ℕ) → ℕ → List ℕ → DrainOut
  | 0, st, b, m, tr => ⟨st, b, m, tr⟩
  | fuel + 1, st, b, m, tr =>
    match b (m % C) with
    | none => ⟨st, b, m, tr⟩
    | some j =>
      drainGo C fuel (setSt st j .emitted) (setBuf b (m % C) none) (m + 1) (tr ++ [j])

/-- One consumer step of `recover_order` for the received message
`(i, value)` (src/ordered_rayon.rs:109-128): store into
`buffer[i % cache_size]`, drain, and republish `approved_to_emit` as the
new `min_idx`. -/
def recvState (C : ℕ) (s : State) (i : ℕ) : State :=
  let st1 := setSt s.status i .stored
  let b1 := setBuf s.buffer (i % C) (some i)
  let d := drainGo C C st1 b1 s.minIdx s.trace
  ⟨d.status, d.buffer, d.minIdx, d.minIdx, d.trace⟩

/-- Number of messages currently inside the `sync_channel`. -/
def sentCount (N : ℕ) (s : State) : ℕ :=
  ((List.range N).filter (fun i => decide (s.status i = PStatus.sent))).length

/-- Interleaved steps of the pipeline over `N` enumerated inputs with
cache size `C`:

* `gate`: a worker holding input `i` observes
  `approved_to_emit.load(...) ≥ i` and exits the spin loop
  (src/ordered_rayon.rs:75-82);
* `send`: the worker performs `tx.send((i, value))`, possible only while
  the bounded channel (capacity `cache_size`, line 62) is not full;
* `recv`: the consumer receives `(i, value)`; the precondition
  `s.buffer (i % C) = none` is the `assert!` of src/ordered_rayon.rs:110
  (a failing assertion aborts the process, so no transition exists past
  a violated one). -/
inductive Step (N C : ℕ) : State → State → Prop
  | gate (s : State) (i : ℕ) :
      i < N → s.status i = .pending → i ≤ s.approved →
      Step N C s { s with status := setSt s.status i .gated }
  | send (s : State) (i : ℕ) :
      s.status i = .gated → sentCount N s < C →
      Step N C s { s with status := setSt s.status i .sent }
  | recv (s : State) (i : ℕ) :
      s.status i = .sent → s.buffer (i % C) = none →
      Step N C s (recvState C s i)

/-- Initial state: every index pending, empty buffer, and
`approved_to_emit = cache_size - 1` (src/ordered_rayon.rs:59). -/
def init (C : ℕ) : State :=
  ⟨fun _ => .pending, fun _ => none, C - 1, 0, []⟩

/-- States reachable by any interleaving from the initial state. -/
def Reachable (N C : ℕ) (s : State) : Prop :=
  Relation.ReflTransGen (Step N C) (init C) s

/-- A state from which no further step is possible: the pipeline has
stopped (all producers and the consumer have finished). -/
def Terminal (N C : ℕ) (s : State) : Prop :=
  ∀ s', ¬ Step N C s s'

/-- The sequence of values passed to `emit` so far, where input `i`
carries the value `inp i` and the worker computes `map (inp i)`. -/
def outputs {α β : Type} (f : α → β) (inp : ℕ → α) (s : State) : List β :=
  s.trace.map (fun i => f (inp i))

/-- The `threads == 1` branch of `par_map_and_emit`
(src/ordered_rayon.rs:48-51): `self.map(map).for_each(emit)`, a pure
sequential map over the `N` inputs in their original order. -/
def seqOutputs {α β : Type} (f : α → β) (inp : ℕ → α) (N : ℕ) : List β :=
  (List.range N).map (fun i => f (inp i))

/-- The inductive invariant of the pipeline. -/
structure Inv (N C : ℕ) (s : State) : Prop where
  emitted_iff : ∀ j, s.status j = .emitted ↔ j < s.minIdx
  buf_iff : ∀ v j, s.buffer v = some j ↔ (s.status j = .stored ∧ v = j % C)
  lt_N : ∀ j, s.status j ≠ .pending → j < N
  approved_inv : (s.approved = C - 1 ∧ s.minIdx = 0) ∨ s.approved = s.minIdx
  window_gs : ∀ j, (s.status j = .gated ∨ s.status j = .sent) → j < C ∨ j ≤ s.minIdx
  window_stored : ∀ j, s.status j = .stored → s.minIdx < j ∧ j < s.minIdx + C
  trace_eq : s.trace = List.range s.minIdx

/-- Two numbers in a common window of length `C` that are congruent
mod `C` are equal. -/
lemma window_modEq_eq {C a b lo : ℕ} (hab : a % C = b % C)
    (ha1 : lo ≤ a) (ha2 : a < lo + C) (hb1 : lo ≤ b) (hb2 : b < lo + C) :
    a = b := by
  rcases le_total a b with h | h
  · have hd : C ∣ b - a := (Nat.modEq_iff_dvd' h).mp hab
    have hlt : b - a < C := by omega
    have := Nat.eq_zero_of_dvd_of_lt hd hlt
    omega
  · have hd : C ∣ a - b := (Nat.modEq_iff_dvd' h).mp hab.symm
    have hlt : a - b < C := by omega
    have := Nat.eq_zero_of_dvd_of_lt hd hlt
    omega

/-- Specification of the drain loop.  Starting from a locally consistent
configuration (`emitted` exactly below `m`, buffer entries exactly the
`stored` indices at their slots, all `stored` indices inside
`[m, m + fuel)` with `fuel ≤ C`), draining preserves consistency, emits a
contiguous run `m, m+1, …` in order, leaves every remaining `stored`
index strictly above the new `min_idx`, and changes no status other than
`stored ↦ emitted`. -/
lemma drainGo_spec (C : ℕ) :
    ∀ (fuel : ℕ) (st : ℕ → PStatus) (b : ℕ → Option ℕ) (m : ℕ) (tr : List ℕ),
      fuel ≤ C →
      (∀ j, st j = .emitted ↔ j < m) →
      (∀ v j, b v = some j ↔ (st j = .stored ∧ v = j % C)) →
      (∀ j, st j = .stored → m ≤ j ∧ j < m + fuel) →
      m ≤ (drainGo C fuel st b m tr).minIdx
      ∧ (∀ j, (drainGo C fuel st b m tr).status j = .emitted
          ↔ j < (drainGo C fuel st b m tr).minIdx)
      ∧ (∀ v j, (drainGo C fuel st b m tr).buffer v = some j
          ↔ ((drainGo C fuel st b m tr).status j = .stored ∧ v = j % C))
      ∧ (∀ j, (drainGo C fuel st b m tr).status j = .stored
          → (drainGo C fuel st b m tr).minIdx < j ∧ j < m + fuel)
      ∧ (∀ j, st j ≠ .stored → (drainGo C fuel st b m tr).status j = st j)
      ∧ (∀ j, st j = .stored
          → (drainGo C fuel st b m tr).status j = .stored
            ∨ (drainGo C fuel st b m tr).status j = .emitted)
      ∧ (drainGo C fuel st b m tr).trace
          = tr ++ List.range' m ((drainGo C fuel st b m tr).minIdx - m) := by
  intro fuel
  induction fuel with
  | zero =>
    intro st b m tr _ h1 hB h5
    refine ⟨le_rfl, h1, hB, ?_, fun _ _ => rfl, ?_, by simp [drainGo]⟩
    · intro j hj
      have := h5 j hj
      omega
    · intro j hj
      have := h5 j hj
      omega
  | succ fuel ih =>
    intro st b m tr hfC h1 hB h5
    rcases hbm : b (m % C) with _ | j
    · -- empty slot: the loop stops
      have hstop : drainGo C (fuel + 1) st b m tr = ⟨st, b, m, tr⟩ := by
        simp [drainGo, hbm]
      rw [hstop]
      refine ⟨le_rfl, h1, hB, ?_, fun _ _ => rfl, fun j hj => Or.inl hj, by simp⟩
      intro j hj
      have hw := h5 j hj
      have hne : j ≠ m := by
        intro he
        subst he
        have : b (j % C) = some j := (hB (j % C) j).mpr ⟨hj, rfl⟩
        rw [hbm] at this
        exact Option.noConfusion this
      exact ⟨by simp only; omega, by omega⟩
    · -- occupied slot: its occupant must be exactly `m`
      have hjprop : st j = .stored ∧ m % C = j % C := (hB (m % C) j).mp hbm
      have hw := h5 j hjprop.1
      have hjm : j = m := by
        have : m = j :=
          window_modEq_eq hjprop.2 le_rfl (by omega) (by omega) (by omega)
        omega
      rw [hjm] at hbm hjprop
      have hstm : st m = .stored := hjprop.1
      have hstep : drainGo C (fuel + 1) st b m tr
          = drainGo C fuel (setSt st m .emitted) (setBuf b (m % C) none)
              (m + 1) (tr ++ [m]) := by
        simp [drainGo, hbm]
      -- local invariants for the recursive call
      have h1' : ∀ k, setSt st m .emitted k = .emitted ↔ k < m + 1 := by
        intro k
        by_cases hk : k = m
        · subst hk
          simp [setSt]
        · simp only [setSt, if_neg hk]
          rw [h1 k]
          omega
      have hB' : ∀ v k, setBuf b (m % C) none v = some k
          ↔ (setSt st m .emitted k = .stored ∧ v = k % C) := by
        intro v k
        by_cases hv : v = m % C
        · subst hv
          simp only [setBuf, if_pos rfl]
          constructor
          · intro h
            exact Option.noConfusion h
          · rintro ⟨hst, hvk⟩
            by_cases hk : k = m
            · subst hk
              simp [setSt] at hst
            · simp only [setSt, if_neg hk] at hst
              have hbk : b (k % C) = some k := (hB (k % C) k).mpr ⟨hst, rfl⟩
              rw [← hvk, hbm] at hbk
              exact absurd (Option.some.inj hbk).symm hk
        · simp only [setBuf, if_neg hv]
          rw [hB v k]
          constructor
          · rintro ⟨hst, hvk⟩
            by_cases hk : k = m
            · subst hk
              exact absurd hvk hv
            · refine ⟨?_, hvk⟩
              simp only [setSt, if_neg hk]
              exact hst
          · rintro ⟨hst, hvk⟩
            by_cases hk : k = m
            · subst hk
              simp [setSt] at hst
            · simp only [setSt, if_neg hk] at hst
              exact ⟨hst, hvk⟩
      have h5' : ∀ k, setSt st m .emitted k = .stored
          → m + 1 ≤ k ∧ k < (m + 1) + fuel := by
        intro k hk
        by_cases hkj : k = m
        · subst hkj
          simp [setSt] at hk
        · simp only [setSt, if_neg hkj] at hk
          have := h5 k hk
          omega
      obtain ⟨ihm, ih1, ihB, ih5, ihPres, ihStored, ihTr⟩ :=
        ih (setSt st m .emitted) (setBuf b (m % C) none) (m + 1) (tr ++ [m])
          (by omega) h1' hB' h5'
      rw [hstep]
      refine ⟨by omega, ih1, ihB, ?_, ?_, ?_, ?_⟩
      · intro k hk
        have := ih5 k hk
        omega
      · intro k hk
        have hkj : k ≠ m := fun he => hk (he ▸ hstm)
        have hsk : setSt st m .emitted k = st k := by
          simp [setSt, if_neg hkj]
        rw [← hsk]
        apply ihPres
        rw [hsk]
        exact hk
      · intro k hk
        by_cases hkj : k = m
        · subst hkj
          right
          have hse : setSt st k .emitted k = .emitted := by simp [setSt]
          have hpr := ihPres k (by rw [hse]; intro h; exact PStatus.noConfusion h)
          rw [hpr, hse]
        · have hsk : setSt st m .emitted k = .stored := by
            simpa [setSt, if_neg hkj] using hk
          exact ihStored k hsk
      · rw [ihTr]
        rw [List.append_assoc]
        congr 1
        have hsucc : (drainGo C fuel (setSt st m .emitted)
            (setBuf b (m % C) none) (m + 1) (tr ++ [m])).minIdx - m
            = ((drainGo C fuel (setSt st m .emitted)
            (setBuf b (m % C) none) (m + 1) (tr ++ [m])).minIdx - (m + 1)) + 1 := by
          omega
        rw [hsucc, List.range'_succ]
        rfl

lemma inv_init (N C : ℕ) : Inv N C (init C) := by
  constructor
  · intro j
    simp [init]
  · intro v j
    simp [init]
  · intro j h
    simp [init] at h
  · left
    exact ⟨rfl, rfl⟩
  · intro j h
    simp [init] at h
  · intro j h
    simp [init] at h
  · simp [init]

/-- A `sent` index lies in the active window `[minIdx, minIdx + C)`. -/
lemma sent_window {N C : ℕ} (hC : 1 ≤ C) {s : State} (hs : Inv N C s)
    {i : ℕ} (hi : s.status i = .sent) :
    s.minIdx ≤ i ∧ i < s.minIdx + C := by
  have hne : ¬ i < s.minIdx := by
    intro hlt
    have := (hs.emitted_iff i).mpr hlt
    rw [hi] at this
    exact PStatus.noConfusion this
  have hgs := hs.window_gs i (Or.inr hi)
  omega

/-- Assertion safety: when a message `(i, value)` is about to be received,
slot `i % cache_size` is empty. -/
lemma sent_slot_none {N C : ℕ} (hC : 1 ≤ C) {s : State} (hs : Inv N C s)
    {i : ℕ} (hi : s.status i = .sent) :
    s.buffer (i % C) = none := by
  rcases hb : s.buffer (i % C) with _ | k
  · rfl
  · exfalso
    have hk := (hs.buf_iff (i % C) k).mp hb
    have hkw := hs.window_stored k hk.1
    have hiw := sent_window hC hs hi
    have : i = k := window_modEq_eq hk.2 hiw.1 hiw.2 (by omega) (by omega)
    rw [this, hk.1] at hi
    exact PStatus.noConfusion hi

lemma inv_step {N C : ℕ} (hC : 1 ≤ C) {s s' : State}
    (hs : Inv N C s) (h : Step N C s s') : Inv N C s' := by
  cases h with
  | gate i hiN hip hia =>
    constructor
    · intro j
      by_cases hj : j = i
      · subst hj
        simp only [setSt, if_pos rfl]
        rw [← hs.emitted_iff j, hip]
        constructor
        · intro h
          exact PStatus.noConfusion h
        · intro h
          exact PStatus.noConfusion h
      · simpa only [setSt, if_neg hj] using hs.emitted_iff j
    · intro v j
      by_cases hj : j = i
      · subst hj
        simp only [setSt, if_pos rfl]
        rw [hs.buf_iff v j, hip]
        constructor
        · rintro ⟨h, _⟩
          exact absurd h (by intro hh; exact PStatus.noConfusion hh)
        · rintro ⟨h, _⟩
          exact absurd h (by intro hh; exact PStatus.noConfusion hh)
      · simpa only [setSt, if_neg hj] using hs.buf_iff v j
    · intro j hj
      by_cases hij : j = i
      · subst hij
        exact hiN
      · simp only [setSt, if_neg hij] at hj
        exact hs.lt_N j hj
    · exact hs.approved_inv
    · intro j hj
      by_cases hij : j = i
      · subst hij
        show j < C ∨ j ≤ s.minIdx
        rcases hs.approved_inv with ⟨ha, hm⟩ | ha
        · rw [ha] at hia
          omega
        · rw [ha] at hia
          omega
      · simp only [setSt, if_neg hij] at hj
        exact hs.window_gs j hj
    · intro j hj
      by_cases hij : j = i
      · subst hij
        simp [setSt] at hj
      · simp only [setSt, if_neg hij] at hj
        exact hs.window_stored j hj
    · exact hs.trace_eq
  | send i hig hcap =>
    constructor
    · intro j
      by_cases hj : j = i
      · subst hj
        simp only [setSt, if_pos rfl]
        rw [← hs.emitted_iff j, hig]
        constructor
        · intro h
          exact PStatus.noConfusion h
        · intro h
          exact PStatus.noConfusion h
      · simpa only [setSt, if_neg hj] using hs.emitted_iff j
    · intro v j
      by_cases hj : j = i
      · subst hj
        simp only [setSt, if_pos rfl]
        rw [hs.buf_iff v j, hig]
        constructor
        · rintro ⟨h, _⟩
          exact absurd h (by intro hh; exact PStatus.noConfusion hh)
        · rintro ⟨h, _⟩
          exact absurd h (by intro hh; exact PStatus.noConfusion hh)
      · simpa only [setSt, if_neg hj] using hs.buf_iff v j
    · intro j hj
      by_cases hij : j = i
      · subst hij
        exact hs.lt_N j (by rw [hig]; intro hh; exact PStatus.noConfusion hh)
      · simp only [setSt, if_neg hij] at hj
        exact hs.lt_N j hj
    · exact hs.approved_inv
    · intro j hj
      by_cases hij : j = i
      · subst hij
        exact hs.window_gs j (Or.inl hig)
      · simp only [setSt, if_neg hij] at hj
        exact hs.window_gs j hj
    · intro j hj
      by_cases hij : j = i
      · subst hij
        simp [setSt] at hj
      · simp only [setSt, if_neg hij] at hj
        exact hs.window_stored j hj
    · exact hs.trace_eq
  | recv i his hbnone =>
    have hiw := sent_window hC hs his
    -- local invariants after the store, before draining
    have h1 : ∀ j, setSt s.status i .stored j = .emitted ↔ j < s.minIdx := by
      intro j
      by_cases hj : j = i
      · subst hj
        simp only [setSt, if_pos rfl]
        rw [← hs.emitted_iff j, his]
        constructor
        · intro h
          exact PStatus.noConfusion h
        · intro h
          exact PStatus.noConfusion h
      · simpa only [setSt, if_neg hj] using hs.emitted_iff j
    have hB : ∀ v j, setBuf s.buffer (i % C) (some i) v = some j
        ↔ (setSt s.status i .stored j = .stored ∧ v = j % C) := by
      intro v j
      by_cases hv : v = i % C
      · subst hv
        simp only [setBuf, if_pos rfl]
        constructor
        · intro h
          have hij : j = i := (Option.some.inj h).symm
          subst hij
          exact ⟨by simp [setSt], rfl⟩
        · rintro ⟨hst, hvk⟩
          by_cases hj : j = i
          · subst hj
            rfl
          · exfalso
            simp only [setSt, if_neg hj] at hst
            have hjw := hs.window_stored j hst
            have : i = j := window_modEq_eq hvk hiw.1 hiw.2 (by omega) (by omega)
            exact hj this.symm
      · simp only [setBuf, if_neg hv]
        rw [hs.buf_iff v j]
        constructor
        · rintro ⟨hst, hvk⟩
          by_cases hj : j = i
          · subst hj
            rw [hst] at his
            exact absurd his (by intro hh; exact PStatus.noConfusion hh)
          · refine ⟨?_, hvk⟩
            simp only [setSt, if_neg hj]
            exact hst
        · rintro ⟨hst, hvk⟩
          by_cases hj : j = i
          · subst hj
            exact absurd hvk hv
          · simp only [setSt, if_neg hj] at hst
            exact ⟨hst, hvk⟩
    have h5 : ∀ j, setSt s.status i .stored j = .stored
        → s.minIdx ≤ j ∧ j < s.minIdx + C := by
      intro j hj
      by_cases hij : j = i
      · subst hij
        exact hiw
      · simp only [setSt, if_neg hij] at hj
        have := hs.window_stored j hj
        omega
    obtain ⟨ihm, ih1, ihB, ih5, ihPres, ihStored, ihTr⟩ :=
      drainGo_spec C C (setSt s.status i .stored)
        (setBuf s.buffer (i % C) (some i)) s.minIdx s.trace le_rfl h1 hB h5
    have hrec : recvState C s i = State.mk
        (drainGo C C (setSt s.status i .stored)
          (setBuf s.buffer (i % C) (some i)) s.minIdx s.trace).status
        (drainGo C C (setSt s.status i .stored)
          (setBuf s.buffer (i % C) (some i)) s.minIdx s.trace).buffer
        (drainGo C C (setSt s.status i .stored)
          (setBuf s.buffer (i % C) (some i)) s.minIdx s.trace).minIdx
        (drainGo C C (setSt s.status i .stored)
          (setBuf s.buffer (i % C) (some i)) s.minIdx s.trace).minIdx
        (drainGo C C (setSt s.status i .stored)
          (setBuf s.buffer (i % C) (some i)) s.minIdx s.trace).trace := rfl
    rw [hrec]
    refine ⟨?_, ?_, ?_, ?_, ?_, ?_, ?_⟩ <;> dsimp only
    · exact ih1
    · exact ihB
    · intro j hj
      by_cases hij : j = i
      · subst hij
        exact hs.lt_N j (by rw [his]; intro hh; exact PStatus.noConfusion hh)
      · apply hs.lt_N j
        intro hp
        apply hj
        have hst1 : setSt s.status i .stored j = s.status j := by
          simp [setSt, if_neg hij]
        have hpres := ihPres j
          (by rw [hst1, hp]; intro hh; exact PStatus.noConfusion hh)
        show (drainGo C C (setSt s.status i PStatus.stored)
            (setBuf s.buffer (i % C) (some i)) s.minIdx s.trace).status j
            = PStatus.pending
        rw [hpres, hst1, hp]
    · right
      rfl
    · intro j hj
      have hnotstored : setSt s.status i .stored j ≠ .stored := by
        intro hst
        rcases ihStored j hst with h' | h' <;> rw [h'] at hj <;>
          rcases hj with hj | hj <;> exact PStatus.noConfusion hj
      have hpres := ihPres j hnotstored
      rw [hpres] at hj
      have hij : j ≠ i := by
        intro he
        subst he
        simp [setSt] at hj
      simp only [setSt, if_neg hij] at hj
      have := hs.window_gs j hj
      omega
    · intro j hj
      have := ih5 j hj
      omega
    · obtain ⟨k, hk, hkm⟩ : ∃ k, (drainGo C C (setSt s.status i .stored)
          (setBuf s.buffer (i % C) (some i)) s.minIdx s.trace).minIdx = k
          ∧ s.minIdx ≤ k := ⟨_, rfl, ihm⟩
      rw [ihTr, hk, hs.trace_eq, List.range'_eq_map_range, ← List.range_add]
      congr 1
      omega

lemma inv_reachable {N C : ℕ} (hC : 1 ≤ C) {s : State}
    (h : Reachable N C s) : Inv N C s := by
  induction h with
  | refl => exact inv_init N C
  | tail _ hbc ih => exact inv_step hC ih hbc

lemma inv_minIdx_le {N C : ℕ} {s : State} (hs : Inv N C s) : s.minIdx ≤ N := by
  by_contra h
  push_neg at h
  have hN : s.status N = .emitted := (hs.emitted_iff N).mpr (by omega)
  have := hs.lt_N N (by rw [hN]; intro hh; exact PStatus.noConfusion hh)
  omega

lemma exists_sent_of_sentCount_pos {N : ℕ} {s : State}
    (h : 0 < sentCount N s) : ∃ j, s.status j = .sent := by
  unfold sentCount at h
  have hne : (List.range N).filter (fun i => decide (s.status i = PStatus.sent))
      ≠ [] := by
    intro he
    rw [he] at h
    simp at h
  obtain ⟨j, hj⟩ := List.exists_mem_of_ne_nil _ hne
  exact ⟨j, of_decide_eq_true (List.mem_filter.mp hj).2⟩

/-- In a state the pipeline cannot leave, everything has been emitted:
`min_idx` has reached `N`. -/
lemma terminal_minIdx_eq {N C : ℕ} (hC : 1 ≤ C) {s : State}
    (hs : Inv N C s) (ht : Terminal N C s) : s.minIdx = N := by
  have hle := inv_minIdx_le hs
  by_contra hne
  have hlt : s.minIdx < N := by omega
  rcases hst : s.status s.minIdx with _ | _ | _ | _ | _
  · -- pending: the spin-loop gate is open, since `approved ≥ min_idx`
    have hap : s.minIdx ≤ s.approved := by
      rcases hs.approved_inv with ⟨_, hm⟩ | ha <;> omega
    exact ht _ (Step.gate s s.minIdx hlt hst hap)
  · -- gated: either the channel has room, or a message can be received
    by_cases hcap : sentCount N s < C
    · exact ht _ (Step.send s s.minIdx hst hcap)
    · push_neg at hcap
      obtain ⟨j, hj⟩ :=
        exists_sent_of_sentCount_pos (lt_of_lt_of_le hC hcap)
      exact ht _ (Step.recv s j hj (sent_slot_none hC hs hj))
  · -- sent: the consumer can receive it
    exact ht _ (Step.recv s s.minIdx hst (sent_slot_none hC hs hst))
  · -- stored: impossible, stored indices sit strictly above min_idx
    have := hs.window_stored _ hst
    omega
  · -- emitted: impossible, emitted indices sit strictly below min_idx
    have := (hs.emitted_iff _).mp hst
    omega

/-- Conversely, once `min_idx = N` no step is enabled. -/
lemma terminal_of_minIdx {N C : ℕ} {s : State} (hs : Inv N C s)
    (hm : s.minIdx = N) : Terminal N C s := by
  intro s' h
  cases h with
  | gate i hiN hip _ =>
    have hE : s.status i = .emitted := (hs.emitted_iff i).mpr (by omega)
    rw [hip] at hE
    exact PStatus.noConfusion hE
  | send i hig _ =>
    have hiN := hs.lt_N i (by rw [hig]; intro hh; exact PStatus.noConfusion hh)
    have hE : s.status i = .emitted := (hs.emitted_iff i).mpr (by omega)
    rw [hig] at hE
    exact PStatus.noConfusion hE
  | recv i his _ =>
    have hiN := hs.lt_N i (by rw [his]; intro hh; exact PStatus.noConfusion hh)
    have hE : s.status i = .emitted := (hs.emitted_iff i).mpr (by omega)
    rw [his] at hE
    exact PStatus.noConfusion hE

/-- In any stopped reachable state, the emission trace is exactly
`0, 1, …, N-1`. -/
lemma terminal_trace_eq {N C : ℕ} (hC : 1 ≤ C) {s : State}
    (hr : Reachable N C s) (ht : Terminal N C s) :
    s.trace = List.range N := by
  have hs := inv_reachable hC hr
  rw [hs.trace_eq, terminal_minIdx_eq hC hs ht]

/-! ### Concrete witness execution (`N = 1`, `C = 1`) -/

/-- After the single producer passes the gate. -/
def wS1 : State := { init 1 with status := setSt (init 1).status 0 .gated }

/-- After `tx.send((0, value))`. -/
def wS2 : State := { wS1 with status := setSt wS1.status 0 .sent }

/-- After the consumer receives, stores, drains and emits index `0`. -/
def wS3 : State := recvState 1 wS2 0

lemma wStep1 : Step 1 1 (init 1) wS1 :=
  Step.gate (init 1) 0 (by decide) rfl (by decide)

lemma wStep2 : Step 1 1 wS1 wS2 :=
  Step.send wS1 0 rfl (by decide)

lemma wStep3 : Step 1 1 wS2 wS3 :=
  Step.recv wS2 0 rfl rfl

lemma wReach2 : Reachable 1 1 wS2 :=
  Relation.ReflTransGen.head wStep1 (Relation.ReflTransGen.head wStep2
    Relation.ReflTransGen.refl)

lemma wReach3 : Reachable 1 1 wS3 :=
  Relation.ReflTransGen.head wStep1 (Relation.ReflTransGen.head wStep2
    (Relation.ReflTransGen.head wStep3 Relation.ReflTransGen.refl))

lemma wTerm3 : Terminal 1 1 wS3 :=
  terminal_of_minIdx (inv_reachable (by decide) wReach3) rfl

/-- Claim C1: for every input stream, every map function, and every run of
the multi-threaded pipeline (any thread count, modelled by unrestricted
interleaving) with cache size `C ≥ 1`, once the pipeline stops it has
passed each mapped input to `emit` exactly once, in exactly the original
input order: the emission trace is `0, 1, …, N-1` and the emitted values
are the mapped inputs in input order. -/
theorem par_map_and_emit_ordered_complete {α β : Type} (f : α → β)
    (inp : ℕ → α) {N C : ℕ} {s : State} (hC : 1 ≤ C)
    (hr : Reachable N C s) (ht : Terminal N C s) :
    s.trace = List.range N
    ∧ outputs f inp s = (List.range N).map (fun i => f (inp i)) := by
  have htr := terminal_trace_eq hC hr ht
  exact ⟨htr, by rw [outputs, htr]⟩

theorem par_map_and_emit_ordered_complete_witness :
    wS3.trace = List.range 1
    ∧ outputs (fun n : ℕ => n * 2) (fun i => i + 5) wS3
      = (List.range 1).map (fun i => (i + 5) * 2) :=
  par_map_and_emit_ordered_complete (fun n : ℕ => n * 2) (fun i => i + 5)
    (by decide) wReach3 wTerm3

/-- Claim C2: the multi-threaded branch of `par_map_and_emit` emits
exactly the same sequence as the `threads == 1` pure-sequential branch
(`self.map(map).for_each(emit)`, embedded as `seqOutputs`), for any
interleaving and any cache size `C ≥ 1`; hence any two thread counts
produce identical output. -/
theorem par_map_and_emit_thread_count_equiv {α β : Type} (f : α → β)
    (inp : ℕ → α) {N C : ℕ} {s : State} (hC : 1 ≤ C)
    (hr : Reachable N C s) (ht : Terminal N C s) :
    outputs f inp s = seqOutputs f inp N := by
  rw [outputs, terminal_trace_eq hC hr ht, seqOutputs]

theorem par_map_and_emit_thread_count_equiv_witness :
    outputs (fun n : ℕ => n + 7) (fun i => i) wS3
      = seqOutputs (fun n : ℕ => n + 7) (fun i => i) 1 :=
  par_map_and_emit_thread_count_equiv (fun n : ℕ => n + 7) (fun i => i)
    (by decide) wReach3 wTerm3

/-- Claim C3: under the backpressure protocol, whenever a message
`(i, result)` is in the channel, slot `i % cache_size` of the reorder
buffer is empty — the `assert!` of `recover_order` never fails — and at
most `cache_size` results are buffered, all inside the window
`(min_idx, min_idx + cache_size)`. -/
theorem recover_order_assert_never_fails {N C : ℕ} (hC : 1 ≤ C)
    {s : State} (hr : Reachable N C s) :
    (∀ i, s.status i = .sent → s.buffer (i % C) = none)
    ∧ (∀ j, s.status j = .stored → s.minIdx < j ∧ j < s.minIdx + C) := by
  have hs := inv_reachable hC hr
  exact ⟨fun _ hi => sent_slot_none hC hs hi, hs.window_stored⟩

theorem recover_order_assert_never_fails_witness :
    wS2.buffer (0 % 1) = none :=
  (recover_order_assert_never_fails (by decide) wReach2).1 0 rfl

end Consensus.PMap

namespace Consensus

/-- Claim C4: `par_map_and_emit` returns the configuration error exactly
when `cache_size < threads`, and in that case the result is the same
whatever the input stream and map function are — the error is raised
before any input element is consumed or `map`/`emit` invoked. -/
theorem par_map_and_emit_config_error_iff {α β : Type} (threads cacheSize : ℕ)
    (inputs : List α) (map : α → β) :
    (parMapAndEmit threads cacheSize inputs map
        = Except.error ⟨threads, cacheSize⟩ ↔ cacheSize < threads)
    ∧ (cacheSize < threads →
        parMapAndEmit threads cacheSize inputs map
          = parMapAndEmit threads cacheSize ([] : List α) map) := by
  constructor
  · constructor
    · intro h
      by_contra hlt
      rw [parMapAndEmit, if_neg hlt] at h
      exact Except.noConfusion h
    · intro h
      rw [parMapAndEmit, if_pos h]
  · intro h
    rw [parMapAndEmit, if_pos h, parMapAndEmit, if_pos h]

theorem par_map_and_emit_config_error_iff_witness :
    (parMapAndEmit 2 1 [5] (Nat.succ) = Except.error ⟨2, 1⟩ ↔ 1 < 2)
    ∧ (1 < 2 → parMapAndEmit 2 1 [5] (Nat.succ)
        = parMapAndEmit 2 1 ([] : List ℕ) (Nat.succ)) :=
  par_map_and_emit_config_error_iff 2 1 [5] Nat.succ

/-! ## The UMI-group iterator (`src/io.rs`, `UMIGroupCollectionIter::next`) -/

/-- `RecordPosition` (src/duplicates.rs:20-23). -/
structure RecordPosition where
  pos : ℕ
  length : ℕ
  deriving DecidableEq, Repr

/-- One step of input to `UMIGroupCollectionIter::next` (src/io.rs:308-361):
the data `next_record` returns for one sequentially-read record, together
with the `records_by_pos` lookup result for its position.  Claims about
the iterator presuppose a consistent collection (every lookup succeeds and
every member fetch succeeds), so the duplicate-map lookup is carried on
the row and `get_rec_random` is a total function parameter. -/
structure IterRow where
  id : List Char
  pos : ℕ
  ignored : Bool
  record : Record
  group : List RecordPosition
  deriving DecidableEq, Repr

/-- `UMIGroup` (src/io.rs:123-135).  `avg_qual : f64` is embedded as an
exact rational. -/
structure UMIGroup where
  id : RecordIdentifier
  index : ℕ
  records : List Record
  avgQual : ℚ
  ignore : Bool
  consensus : Option Record
  deriving DecidableEq, Repr

/-- The group average quality (src/io.rs:347-348):
`records.iter().map(phred_quality_avg).sum / records.len()`. -/
def groupAvgQual (records : List Record) : ℚ :=
  (records.map Record.phredQualityAvg).sum / (records.length : ℚ)

/-- The full run of `UMIGroupCollectionIter::next` (src/io.rs:308-361)
over a stream of rows, carrying the iterator state `visited_reads`
(embedded as a list used as a set) and `current_idx`.  Per step:

* a row whose position was already visited, or whose index row is
  `ignored`, is skipped (line 316);
* with `duplicates_only` set, a group of size 1 is skipped (line 332) —
  in both skip cases `current_idx` is *not* incremented;
* otherwise the group is materialized: the sequential record first, then
  every remaining member via `get_rec_random` (whose position is added to
  `visited_reads`), `index` is `current_idx`, `ignore` is `false`
  (line 355), and `current_idx` is incremented (line 358). -/
def iterGroups (duplicatesOnly : Bool) (fetch : RecordPosition → Record) :
    List IterRow → List ℕ → ℕ → List UMIGroup
  | [], _, _ => []
  | row :: rest, visited, idx =>
    if row.pos ∈ visited ∨ row.ignored then
      iterGroups duplicatesOnly fetch rest visited idx
    else if duplicatesOnly ∧ row.group.length = 1 then
      iterGroups duplicatesOnly fetch rest visited idx
    else
      { id := RecordIdentifier.fromString row.id
        index := idx
        records := row.record :: (row.group.drop 1).map fetch
        avgQual := groupAvgQual (row.record :: (row.group.drop 1).map fetch)
        ignore := false
        consensus := none }
        :: iterGroups duplicatesOnly fetch rest
            ((row.group.drop 1).map RecordPosition.pos ++ visited) (idx + 1)

lemma iterGroups_index_map (dOnly : Bool) (fetch : RecordPosition → Record) :
    ∀ (rows : List IterRow) (visited : List ℕ) (idx : ℕ),
      (iterGroups dOnly fetch rows visited idx).map UMIGroup.index
        = List.range' idx (iterGroups dOnly fetch rows visited idx).length := by
  intro rows
  induction rows with
  | nil =>
    intro visited idx
    simp [iterGroups]
  | cons row rest ih =>
    intro visited idx
    by_cases h1 : row.pos ∈ visited ∨ row.ignored = true
    · simp only [iterGroups, if_pos h1]
      exact ih visited idx
    · by_cases h2 : dOnly = true ∧ row.group.length = 1
      · simp only [iterGroups, if_neg h1, if_pos h2]
        exact ih visited idx
      · simp only [iterGroups, if_neg h1, if_neg h2, List.map_cons,
          List.length_cons]
        rw [ih, List.range'_succ]

/-- Claim C5: for every row stream, both values of `duplicates_only`, and
every fetch function, the `index` fields of the groups yielded by the
UMI-group iterator are the gap-free sequence `0, 1, …, N-1` in discovery
order over exactly the yielded groups: skipped rows (already visited,
ignored, or singleton under `duplicates_only`) do not advance the
counter. -/
theorem umi_group_indices_gap_free (dOnly : Bool)
    (fetch : RecordPosition → Record) (rows : List IterRow) :
    (iterGroups dOnly fetch rows [] 0).map UMIGroup.index
      = List.range ((iterGroups dOnly fetch rows [] 0).length) := by
  rw [iterGroups_index_map, List.range_eq_range']

/-- Claim C8 (amended): every group yielded by the UMI-group iterator has
`ignore = false` — the iterator of src/io.rs performs no byte-span
ceiling check at all. -/
theorem umi_group_ignore_always_false (dOnly : Bool)
    (fetch : RecordPosition → Record) :
    ∀ (rows : List IterRow) (visited : List ℕ) (idx : ℕ),
      ∀ g ∈ iterGroups dOnly fetch rows visited idx, g.ignore = false := by
  intro rows
  induction rows with
  | nil =>
    intro visited idx g hg
    simp [iterGroups] at hg
  | cons row rest ih =>
    intro visited idx g hg
    by_cases h1 : row.pos ∈ visited ∨ row.ignored = true
    · rw [iterGroups, if_pos h1] at hg
      exact ih visited idx g hg
    · by_cases h2 : dOnly = true ∧ row.group.length = 1
      · rw [iterGroups, if_neg h1, if_pos h2] at hg
        exact ih visited idx g hg
      · rw [iterGroups, if_neg h1, if_neg h2] at hg
        rcases List.mem_cons.mp hg with hg | hg
        · rw [hg]
        · exact ih _ _ g hg

/-- Record used by the concrete C8 inputs. -/
def c8Rec : Record := ⟨['r'], ['A', 'C'], [40, 40]⟩

/-- Fetch function used by the concrete C8 inputs. -/
def c8Fetch : RecordPosition → Record := fun _ => c8Rec

/-- A row whose two members span 40,000 bytes in total — above the
30,000-byte ceiling the specification describes. -/
def c8Row : IterRow := ⟨['a', '_', 'b'], 0, false, c8Rec,
  [⟨0, 20000⟩, ⟨30000, 20000⟩]⟩

/-- A singleton row, below any ceiling. -/
def c8WitRow : IterRow := ⟨['a'], 0, false, c8Rec, [⟨0, 10⟩]⟩

/-- The group yielded for `c8WitRow`. -/
def c8WitGroup : UMIGroup :=
  ⟨RecordIdentifier.fromString ['a'], 0, [c8Rec], groupAvgQual [c8Rec],
    false, none⟩

/-- Claim C8 counterexample: a group whose members span 40,000 bytes —
strictly above the configured 30,000-byte ceiling — is nevertheless
yielded with `ignore = false`, so the claim that such groups carry
`ignore = true` is false on this code. -/
theorem umi_group_no_size_ceiling_counterexample :
    (iterGroups false c8Fetch [c8Row] [] 0).map UMIGroup.ignore = [false]
    ∧ (c8Row.group.map RecordPosition.length).sum = 40000
    ∧ 30000 < 40000 := by
  decide

theorem umi_group_ignore_always_false_witness :
    c8WitGroup.ignore = false :=
  umi_group_ignore_always_false false c8Fetch [c8WitRow] [] 0 c8WitGroup
    (by
      have h : iterGroups false c8Fetch [c8WitRow] [] 0 = [c8WitGroup] := by
        rfl
      rw [h]
      exact List.mem_singleton.mpr rfl)

/-- Claim C7: evaluation of `RecordIdentifier::from_string` showing the
divergence on separator-free input.  On `"abc"` the code produces
`head = "ab"` (dropping the final character) rather than the documented
`head = "abc"`, so `Display ∘ from_string` is not the identity there,
contradicting the code's own doc comment that the two are inverses; on
input containing `'_'` the split at the first underscore behaves as
documented. -/
theorem from_string_no_separator_drops_last_char :
    RecordIdentifier.fromString ['a', 'b', 'c'] = ⟨['a', 'b'], []⟩
    ∧ RecordIdentifier.render
        (RecordIdentifier.fromString ['a', 'b', 'c']) ≠ ['a', 'b', 'c']
    ∧ RecordIdentifier.fromString ['a', 'b', '_', 'c', 'd']
        = ⟨['a', 'b'], ['c', 'd']⟩ := by
  decide

/-! ## DuplicateMap construction (`src/duplicates.rs`, `src/index.rs`) -/

/-- `IndexRecord` (src/index.rs:23-31); `avg_qual : f64` embedded as an
exact rational. -/
structure IndexRecord where
  id : List Char
  pos : ℕ
  avgQual : ℚ
  nBases : ℕ
  recLen : ℕ
  ignored : Bool
  deriving DecidableEq, Repr

/-- Insertion-ordered update of the `by_id` `IndexMap`
(src/duplicates.rs:49-52): `entry(id).and_modify(|e| e.push(rec_pos))
.or_insert(vec![rec_pos])` — append to an existing key's list, or append
a fresh singleton entry. -/
def insertByIdEntry : List (RecordIdentifier × List RecordPosition) →
    RecordIdentifier → RecordPosition →
    List (RecordIdentifier × List RecordPosition)
  | [], id, rp => [(id, [rp])]
  | (k, ps) :: rest, id, rp =>
    if k = id then (k, ps ++ [rp]) :: rest
    else (k, ps) :: insertByIdEntry rest id rp

/-- Insertion-ordered update of the `pos_to_id` `IndexMap`
(src/duplicates.rs:47): overwrite an existing key in place, else append. -/
def insertPosToId : List (ℕ × RecordIdentifier) → ℕ → RecordIdentifier →
    List (ℕ × RecordIdentifier)
  | [], p, id => [(p, id)]
  | (k, v) :: rest, p, id =>
    if k = p then (k, id) :: rest else (k, v) :: insertPosToId rest p id

/-- `DuplicateMap` (src/duplicates.rs:26-29): both `IndexMap`s embedded as
insertion-ordered association lists. -/
structure DuplicateMap where
  byId : List (RecordIdentifier × List RecordPosition)
  posToId : List (ℕ × RecordIdentifier)
  deriving DecidableEq, Repr

/-- `DuplicateMap::insert` (src/duplicates.rs:39-53). -/
def DuplicateMap.insert (m : DuplicateMap) (record : IndexRecord) :
    DuplicateMap :=
  let id := RecordIdentifier.fromString record.id
  { byId := insertByIdEntry m.byId id ⟨record.pos, record.recLen⟩
    posToId := insertPosToId m.posToId record.pos id }

/-- The map-building loop of `IndexReader::get_duplicates`
(src/duplicates.rs:152-174): start from the empty map and insert every
row whose `ignored` flag is clear, in file order. -/
def buildDuplicateMap (rows : List IndexRecord) : DuplicateMap :=
  rows.foldl (fun m r => if r.ignored then m else m.insert r) ⟨[], []⟩

/-- All record positions stored in the `by_id` groups, in group order. -/
def DuplicateMap.allPositions (m : DuplicateMap) : List RecordPosition :=
  (m.byId.map Prod.snd).flatten

lemma insertByIdEntry_flat_perm (id : RecordIdentifier)
    (rp : RecordPosition) :
    ∀ l : List (RecordIdentifier × List RecordPosition),
      List.Perm (((insertByIdEntry l id rp).map Prod.snd).flatten)
        (rp :: (l.map Prod.snd).flatten) := by
  intro l
  induction l with
  | nil => simp [insertByIdEntry]
  | cons e rest ih =>
    rcases e with ⟨k, ps⟩
    by_cases hk : k = id
    · simp only [insertByIdEntry, if_pos hk, List.map_cons, List.flatten_cons]
      have h1 : List.Perm ((ps ++ [rp]) ++ (rest.map Prod.snd).flatten)
          ((rp :: ps) ++ (rest.map Prod.snd).flatten) :=
        List.Perm.append_right _ (List.perm_append_singleton rp ps)
      exact h1
    · simp only [insertByIdEntry, if_neg hk, List.map_cons, List.flatten_cons]
      have h1 : List.Perm
          (ps ++ ((insertByIdEntry rest id rp).map Prod.snd).flatten)
          (ps ++ rp :: (rest.map Prod.snd).flatten) :=
        List.Perm.append_left ps ih
      exact h1.trans List.perm_middle

lemma buildDuplicateMap_flat_perm :
    ∀ (rows : List IndexRecord) (m : DuplicateMap),
      List.Perm
        ((rows.foldl (fun m r => if r.ignored then m else m.insert r)
          m).allPositions)
        (m.allPositions
          ++ (rows.filter (fun r => !r.ignored)).map
              (fun r => (⟨r.pos, r.recLen⟩ : RecordPosition))) := by
  intro rows
  induction rows with
  | nil =>
    intro m
    simp
  | cons r rest ih =>
    intro m
    by_cases hig : r.ignored = true
    · simp only [List.foldl_cons, if_pos hig, List.filter_cons, hig,
        Bool.not_true]
      simpa using ih m
    · have hig' : r.ignored = false := by
        revert hig
        cases r.ignored <;> simp
      simp only [List.foldl_cons, hig',
        if_neg (by simp [hig'] : ¬ (r.ignored = true)),
        List.filter_cons, Bool.not_false]
      have h1 := ih (m.insert r)
      have h2 : List.Perm ((m.insert r).allPositions)
          ((⟨r.pos, r.recLen⟩ : RecordPosition) :: m.allPositions) :=
        insertByIdEntry_flat_perm _ _ m.byId
      have h3 := List.Perm.append_right
        ((rest.filter (fun r => !r.ignored)).map
          (fun r => (⟨r.pos, r.recLen⟩ : RecordPosition))) h2
      refine (h1.trans h3).trans ?_
      exact List.perm_middle.symm

lemma pairwise_disjoint_of_flatten_nodup :
    ∀ l : List (RecordIdentifier × List RecordPosition),
      (((l.map Prod.snd).flatten).map RecordPosition.pos).Nodup →
      List.Pairwise (fun e₁ e₂ => ∀ p₁ ∈ e₁.2, ∀ p₂ ∈ e₂.2,
        p₁.pos ≠ p₂.pos) l := by
  intro l
  induction l with
  | nil =>
    intro _
    exact List.Pairwise.nil
  | cons e rest ih =>
    intro h
    simp only [List.map_cons, List.flatten_cons, List.map_append,
      List.nodup_append] at h
    obtain ⟨h1, h2, hdisj⟩ := h
    refine List.Pairwise.cons ?_ (ih h2)
    intro e' he' p₁ hp₁ p₂ hp₂
    intro heq
    have hm1 : p₁.pos ∈ e.2.map RecordPosition.pos :=
      List.mem_map_of_mem _ hp₁
    have hm2 : p₂.pos ∈ ((rest.map Prod.snd).flatten).map RecordPosition.pos := by
      apply List.mem_map_of_mem
      apply List.mem_flatten.mpr
      exact ⟨e'.2, List.mem_map_of_mem _ he', hp₂⟩
    rw [heq] at hm1
    exact hdisj hm1 hm2

/-- Claim C6: for rows with pairwise-distinct positions (a valid index),
the position lists of `by_id` after `get_duplicates` has processed the
rows are pairwise disjoint; every non-ignored row's position appears in
exactly one group's list exactly once; and ignored rows appear in no
group.  The partition is established by induction over the inserts, so it
is preserved by every insert. -/
theorem duplicate_map_partitions_non_ignored_rows (rows : List IndexRecord)
    (hnd : (rows.map IndexRecord.pos).Nodup) :
    List.Pairwise (fun e₁ e₂ => ∀ p₁ ∈ e₁.2, ∀ p₂ ∈ e₂.2, p₁.pos ≠ p₂.pos)
      (buildDuplicateMap rows).byId
    ∧ (∀ r ∈ rows, r.ignored = false →
        ((buildDuplicateMap rows).allPositions.map RecordPosition.pos).count
          r.pos = 1)
    ∧ (∀ r ∈ rows, r.ignored = true →
        ∀ p ∈ (buildDuplicateMap rows).allPositions, p.pos ≠ r.pos) := by
  have hperm : List.Perm (buildDuplicateMap rows).allPositions
      ((rows.filter (fun r => !r.ignored)).map
        (fun r => (⟨r.pos, r.recLen⟩ : RecordPosition))) := by
    have h := buildDuplicateMap_flat_perm rows ⟨[], []⟩
    simpa [buildDuplicateMap, DuplicateMap.allPositions] using h
  have hpermPos : List.Perm
      ((buildDuplicateMap rows).allPositions.map RecordPosition.pos)
      ((rows.filter (fun r => !r.ignored)).map IndexRecord.pos) := by
    have h := hperm.map RecordPosition.pos
    simpa [List.map_map, Function.comp] using h
  have hsub : List.Sublist
      ((rows.filter (fun r => !r.ignored)).map IndexRecord.pos)
      (rows.map IndexRecord.pos) :=
    List.Sublist.map _ (List.filter_sublist rows)
  have hndf : ((rows.filter (fun r => !r.ignored)).map IndexRecord.pos).Nodup :=
    List.Sublist.nodup hsub hnd
  have hflatNodup :
      ((buildDuplicateMap rows).allPositions.map RecordPosition.pos).Nodup :=
    hpermPos.nodup_iff.mpr hndf
  refine ⟨?_, ?_, ?_⟩
  · exact pairwise_disjoint_of_flatten_nodup _ hflatNodup
  · intro r hr hrig
    rw [hpermPos.count_eq]
    apply List.count_eq_one_of_mem hndf
    exact List.mem_map_of_mem _ (List.mem_filter.mpr ⟨hr, by simp [hrig]⟩)
  · intro r hr hrig p hp heq
    have hp' : r.pos ∈ (rows.filter (fun r => !r.ignored)).map
        IndexRecord.pos := by
      have hm : p.pos ∈ (buildDuplicateMap rows).allPositions.map
          RecordPosition.pos := List.mem_map_of_mem _ hp
      rw [heq] at hm
      exact hpermPos.mem_iff.mp hm
    obtain ⟨r', hr', hr'pos⟩ := List.mem_map.mp hp'
    have hr'rows : r' ∈ rows := (List.mem_filter.mp hr').1
    have hrr : r' = r := List.inj_on_of_nodup_map hnd hr'rows hr hr'pos
    have : r.ignored = false := by
      have h2 := (List.mem_filter.mp hr').2
      rw [hrr] at h2
      simpa using h2
    rw [this] at hrig
    exact Bool.noConfusion hrig

/-- Rows used by the C6 witness: two duplicates of `A_1`, one ignored
`B_2`, one singleton `C_3`. -/
def c6Rows : List IndexRecord :=
  [⟨['A', '_', '1'], 0, 0, 5, 100, false⟩,
   ⟨['A', '_', '1'], 100, 0, 5, 120, false⟩,
   ⟨['B', '_', '2'], 220, 0, 5, 80, true⟩,
   ⟨['C', '_', '3'], 300, 0, 5, 90, false⟩]

theorem duplicate_map_partitions_non_ignored_rows_witness :
    ((buildDuplicateMap c6Rows).allPositions.map RecordPosition.pos).count
      100 = 1 :=
  (duplicate_map_partitions_non_ignored_rows c6Rows (by decide)).2.1
    ⟨['A', '_', '1'], 100, 0, 5, 120, false⟩
    (List.mem_cons_of_mem _ (List.mem_cons_self _ _)) rfl

/-! ## Identifier metadata tags (`Record::add_metadata`, src/io.rs:95-120) -/

/-- Decimal rendering of an unsigned integer, as Rust `format!("{n}")`
produces it (most significant digit first, `"0"` for zero). -/
def natToChars (n : ℕ) : List Char :=
  if n = 0 then ['0'] else (Nat.digits 10 n).reverse.map Nat.digitChar

/-- Reading a decimal digit string back to a number. -/
def charsToNat (l : List Char) : ℕ :=
  Nat.ofDigits 10 ((l.map (fun c => c.toNat - 48)).reverse)

lemma digitChar_toNat {d : ℕ} (h : d < 10) :
    (Nat.digitChar d).toNat - 48 = d := by
  interval_cases d <;> decide

lemma digitChar_isDigit {d : ℕ} (h : d < 10) :
    (Nat.digitChar d).isDigit = true := by
  interval_cases d <;> decide

lemma natToChars_isDigit (n : ℕ) : ∀ c ∈ natToChars n, c.isDigit = true := by
  intro c hc
  rw [natToChars] at hc
  by_cases h : n = 0
  · rw [if_pos h] at hc
    simp at hc
    rw [hc]
    decide
  · rw [if_neg h] at hc
    simp only [List.mem_map, List.mem_reverse] at hc
    obtain ⟨d, hd, rfl⟩ := hc
    exact digitChar_isDigit (Nat.digits_lt_base (by norm_num) hd)

lemma ne_space_of_isDigit {c : Char} (h : c.isDigit = true) : c ≠ ' ' := by
  intro he
  rw [he] at h
  exact absurd h (by decide)

lemma ne_underscore_of_isDigit {c : Char} (h : c.isDigit = true) :
    c ≠ '_' := by
  intro he
  rw [he] at h
  exact absurd h (by decide)

lemma space_not_mem_natToChars (n : ℕ) : ' ' ∉ natToChars n := by
  intro hc
  exact ne_space_of_isDigit (natToChars_isDigit n ' ' hc) rfl

lemma underscore_not_mem_natToChars (n : ℕ) : '_' ∉ natToChars n := by
  intro hc
  exact ne_underscore_of_isDigit (natToChars_isDigit n '_' hc) rfl

lemma charsToNat_natToChars (n : ℕ) : charsToNat (natToChars n) = n := by
  by_cases h : n = 0
  · rw [h]
    decide
  · have h1 : (natToChars n).map (fun c => c.toNat - 48)
        = (Nat.digits 10 n).reverse := by
      rw [natToChars, if_neg h, List.map_map]
      have h2 : ∀ d ∈ (Nat.digits 10 n).reverse,
          ((fun c => c.toNat - 48) ∘ Nat.digitChar) d = d := by
        intro d hd
        exact digitChar_toNat
          (Nat.digits_lt_base (by norm_num) (List.mem_reverse.mp hd))
      rw [List.map_congr_left h2, List.map_id']
    rw [charsToNat, h1, List.reverse_reverse, Nat.ofDigits_digits]

/-- Splitting a character list at every occurrence of `c` (the separator
is dropped; adjacent separators give empty fields). -/
def splitOnChar (c : Char) : List Char → List (List Char)
  | [] => [[]]
  | x :: xs =>
    if x = c then [] :: splitOnChar c xs
    else
      match splitOnChar c xs with
      | [] => [[x]]
      | t :: ts => (x :: t) :: ts

lemma splitOnChar_of_not_mem (c : Char) :
    ∀ l : List Char, c ∉ l → splitOnChar c l = [l] := by
  intro l
  induction l with
  | nil =>
    intro _
    rfl
  | cons x xs ih =>
    intro h
    have hx : ¬ x = c := fun he => h (by rw [he]; exact List.mem_cons_self c xs)
    have hxs : c ∉ xs := fun hm => h (List.mem_cons_of_mem _ hm)
    simp only [splitOnChar, if_neg hx, ih hxs]

lemma splitOnChar_append (c : Char) :
    ∀ (xs ys : List Char), c ∉ xs →
      splitOnChar c (xs ++ c :: ys) = xs :: splitOnChar c ys := by
  intro xs
  induction xs with
  | nil =>
    intro ys _
    simp [splitOnChar]
  | cons x xs ih =>
    intro ys h
    have hx : ¬ x = c := fun he => h (by rw [he]; exact List.mem_cons_self c xs)
    have hxs : c ∉ xs := fun hm => h (List.mem_cons_of_mem _ hm)
    simp only [List.cons_append, splitOnChar, if_neg hx]
    rw [List.append_eq, ih ys hxs]

lemma not_mem_append_chars {c : Char} {l₁ l₂ : List Char}
    (h1 : c ∉ l₁) (h2 : c ∉ l₂) : c ∉ l₁ ++ l₂ := by
  intro h
  rcases List.mem_append.mp h with h | h
  · exact h1 h
  · exact h2 h

/-- `ReadType` (src/io.rs:16-22). -/
inductive ReadType
  | consensus
  | single
  | original
  | ignored
  deriving DecidableEq, Repr

/-- The `read_type_label` computed by `Record::add_metadata`
(src/io.rs:103-108): `CON_{group_size}`, `SIN`,
`ORIG_{group_idx}_OF_{group_size}`, or `IGN`. -/
def readTypeLabel : ReadType → ℕ → ℕ → List Char
  | .consensus, _, groupSize => ['C', 'O', 'N', '_'] ++ natToChars groupSize
  | .single, _, _ => ['S', 'I', 'N']
  | .original, groupIdx, groupSize =>
      ['O', 'R', 'I', 'G', '_'] ++ natToChars groupIdx
        ++ ['_', 'O', 'F', '_'] ++ natToChars groupSize
  | .ignored, _, _ => ['I', 'G', 'N']

/-- The `{avg_qual:.2}` fixed-point rendering used for the `QL:f:` field
(src/io.rs:118), for the nonnegative qualities that occur: the value
rounded to centi-units, printed as `int.dd`. -/
def fixed2 (q : ℚ) : List Char :=
  natToChars ((round (q * 100)).toNat / 100) ++ '.' ::
    (if (round (q * 100)).toNat % 100 < 10 then
      '0' :: natToChars ((round (q * 100)).toNat % 100)
    else natToChars ((round (q * 100)).toNat % 100))

/-- `Record::add_metadata` (src/io.rs:95-120): append
`" UT:Z:{label} UG:i:{umi_group}"` to the identifier, then — unless the
read type is `Original` or `Ignored` — `" QL:f:{avg_qual:.2}"`. -/
def Record.addMetadata (r : Record) (umiGroup : ℕ) (readType : ReadType)
    (groupIdx groupSize : ℕ) (avgQual : ℚ) : Record :=
  { r with id := r.id
      ++ [' ', 'U', 'T', ':', 'Z', ':']
      ++ readTypeLabel readType groupIdx groupSize
      ++ [' ', 'U', 'G', ':', 'i', ':'] ++ natToChars umiGroup
      ++ (if readType = .original ∨ readType = .ignored then []
          else [' ', 'Q', 'L', ':', 'f', ':'] ++ fixed2 avgQual) }

/-- Parsed form of a read-type tag. -/
inductive ParsedTag
  | con : ℕ → ParsedTag
  | sin : ParsedTag
  | orig : ℕ → ℕ → ParsedTag
  | ign : ParsedTag
  deriving DecidableEq, Repr

/-- Everything recoverable from an output identifier line. -/
structure ParsedMeta where
  origId : List Char
  tag : ParsedTag
  umiGroup : ℕ
  ql : Option (List Char)
  deriving DecidableEq, Repr

/-- Strip a required prefix from a token. -/
def parseTok (pre tok : List Char) : Option (List Char) :=
  if tok.take pre.length = pre then some (tok.drop pre.length) else none

/-- Parse a read-type label back into its tag. -/
def parseLabel (l : List Char) : Option ParsedTag :=
  if l = ['S', 'I', 'N'] then some .sin
  else if l = ['I', 'G', 'N'] then some .ign
  else if l.take 4 = ['C', 'O', 'N', '_'] then
    some (.con (charsToNat (l.drop 4)))
  else if l.take 5 = ['O', 'R', 'I', 'G', '_'] then
    match splitOnChar '_' (l.drop 5) with
    | [i, mid, n] =>
      if mid = ['O', 'F'] then some (.orig (charsToNat i) (charsToNat n))
      else none
    | _ => none
  else none

/-- Re-parse an output identifier produced by `add_metadata`: split on
spaces, strip the `UT:Z:`/`UG:i:` (and optional `QL:f:`) prefixes, and
decode the label. -/
def parseMetadata (s : List Char) : Option ParsedMeta :=
  match splitOnChar ' ' s with
  | [idTok, utTok, ugTok] =>
    match parseTok ['U', 'T', ':', 'Z', ':'] utTok with
    | none => none
    | some lab =>
      match parseLabel lab with
      | none => none
      | some tag =>
        match parseTok ['U', 'G', ':', 'i', ':'] ugTok with
        | none => none
        | some ug => some ⟨idTok, tag, charsToNat ug, none⟩
  | [idTok, utTok, ugTok, qlTok] =>
    match parseTok ['U', 'T', ':', 'Z', ':'] utTok with
    | none => none
    | some lab =>
      match parseLabel lab with
      | none => none
      | some tag =>
        match parseTok ['U', 'G', ':', 'i', ':'] ugTok with
        | none => none
        | some ug =>
          match parseTok ['Q', 'L', ':', 'f', ':'] qlTok with
          | none => none
          | some ql => some ⟨idTok, tag, charsToNat ug, some ql⟩
  | _ => none

/-- The tag `add_metadata` encodes for a given read type. -/
def tagOf : ReadType → ℕ → ℕ → ParsedTag
  | .consensus, _, gs => .con gs
  | .single, _, _ => .sin
  | .original, gi, gs => .orig gi gs
  | .ignored, _, _ => .ign

lemma space_not_mem_label (rt : ReadType) (gi gs : ℕ) :
    ' ' ∉ readTypeLabel rt gi gs := by
  cases rt with
  | single =>
    show ' ' ∉ (['S', 'I', 'N'] : List Char)
    decide
  | ignored =>
    show ' ' ∉ (['I', 'G', 'N'] : List Char)
    decide
  | consensus =>
    exact not_mem_append_chars (by decide) (space_not_mem_natToChars gs)
  | original =>
    exact not_mem_append_chars
      (not_mem_append_chars
        (not_mem_append_chars (by decide) (space_not_mem_natToChars gi))
        (by decide))
      (space_not_mem_natToChars gs)

lemma space_not_mem_fixed2 (q : ℚ) : ' ' ∉ fixed2 q := by
  rw [fixed2]
  apply not_mem_append_chars (space_not_mem_natToChars _)
  intro h
  simp only [List.mem_cons] at h
  rcases h with h | h
  · exact absurd h (by decide)
  · by_cases hc : (round (q * 100)).toNat % 100 < 10
    · rw [if_pos hc] at h
      simp only [List.mem_cons] at h
      rcases h with h | h
      · exact absurd h (by decide)
      · exact space_not_mem_natToChars _ h
    · rw [if_neg hc] at h
      exact space_not_mem_natToChars _ h

lemma parseTok_append (pre rest : List Char) :
    parseTok pre (pre ++ rest) = some rest := by
  rw [parseTok, List.take_left, if_pos rfl, List.drop_left]

lemma parseLabel_readTypeLabel (rt : ReadType) (gi gs : ℕ) :
    parseLabel (readTypeLabel rt gi gs) = some (tagOf rt gi gs) := by
  cases rt with
  | single => rfl
  | ignored => rfl
  | consensus =>
    have hsin : ¬ (['C', 'O', 'N', '_'] ++ natToChars gs = ['S', 'I', 'N']) := by
      intro he
      have h1 : (['C'] : List Char) = ['S'] := congrArg (List.take 1) he
      exact absurd h1 (by decide)
    have hign : ¬ (['C', 'O', 'N', '_'] ++ natToChars gs = ['I', 'G', 'N']) := by
      intro he
      have h1 : (['C'] : List Char) = ['I'] := congrArg (List.take 1) he
      exact absurd h1 (by decide)
    have hcon : (['C', 'O', 'N', '_'] ++ natToChars gs).take 4
        = ['C', 'O', 'N', '_'] := rfl
    rw [readTypeLabel, parseLabel, if_neg hsin, if_neg hign, if_pos hcon]
    rw [show (['C', 'O', 'N', '_'] ++ natToChars gs).drop 4
        = natToChars gs from rfl]
    rw [charsToNat_natToChars]
    rfl
  | original =>
    have hsin : ¬ (['O', 'R', 'I', 'G', '_'] ++ natToChars gi
        ++ ['_', 'O', 'F', '_'] ++ natToChars gs = ['S', 'I', 'N']) := by
      intro he
      have h1 : (['O'] : List Char) = ['S'] := congrArg (List.take 1) he
      exact absurd h1 (by decide)
    have hign : ¬ (['O', 'R', 'I', 'G', '_'] ++ natToChars gi
        ++ ['_', 'O', 'F', '_'] ++ natToChars gs = ['I', 'G', 'N']) := by
      intro he
      have h1 : (['O'] : List Char) = ['I'] := congrArg (List.take 1) he
      exact absurd h1 (by decide)
    have hcon : ¬ ((['O', 'R', 'I', 'G', '_'] ++ natToChars gi
        ++ ['_', 'O', 'F', '_'] ++ natToChars gs).take 4
          = ['C', 'O', 'N', '_']) := by
      intro he
      have h1 : (['O', 'R', 'I', 'G'] : List Char) = ['C', 'O', 'N', '_'] := he
      exact absurd h1 (by decide)
    have horig : (['O', 'R', 'I', 'G', '_'] ++ natToChars gi
        ++ ['_', 'O', 'F', '_'] ++ natToChars gs).take 5
          = ['O', 'R', 'I', 'G', '_'] := rfl
    rw [readTypeLabel, parseLabel, if_neg hsin, if_neg hign, if_neg hcon,
      if_pos horig]
    rw [show (['O', 'R', 'I', 'G', '_'] ++ natToChars gi
        ++ ['_', 'O', 'F', '_'] ++ natToChars gs).drop 5
      = (natToChars gi ++ ['_', 'O', 'F', '_']) ++ natToChars gs from rfl]
    have e2 : (natToChars gi ++ ['_', 'O', 'F', '_']) ++ natToChars gs
        = natToChars gi ++ '_' :: (['O', 'F'] ++ '_' :: natToChars gs) := by
      simp [List.cons_append, List.append_assoc]
    rw [e2, splitOnChar_append _ _ _ (underscore_not_mem_natToChars gi),
      splitOnChar_append _ _ _ (by decide),
      splitOnChar_of_not_mem _ _ (underscore_not_mem_natToChars gs)]
    dsimp only
    rw [if_pos rfl, charsToNat_natToChars, charsToNat_natToChars]
    rfl

lemma splitMeta3 (idc lab ug : List Char) (hid : ' ' ∉ idc)
    (hl : ' ' ∉ lab) (hu : ' ' ∉ ug) :
    splitOnChar ' ' (idc ++ [' ', 'U', 'T', ':', 'Z', ':'] ++ lab
        ++ [' ', 'U', 'G', ':', 'i', ':'] ++ ug)
      = [idc, ['U', 'T', ':', 'Z', ':'] ++ lab,
          ['U', 'G', ':', 'i', ':'] ++ ug] := by
  have e1 : idc ++ [' ', 'U', 'T', ':', 'Z', ':'] ++ lab
      ++ [' ', 'U', 'G', ':', 'i', ':'] ++ ug
      = idc ++ ' ' :: ((['U', 'T', ':', 'Z', ':'] ++ lab)
          ++ ' ' :: (['U', 'G', ':', 'i', ':'] ++ ug)) := by
    simp [List.cons_append, List.append_assoc]
  rw [e1, splitOnChar_append _ _ _ hid,
    splitOnChar_append _ _ _ (not_mem_append_chars (by decide) hl),
    splitOnChar_of_not_mem _ _ (not_mem_append_chars (by decide) hu)]

lemma splitMeta4 (idc lab ug ql : List Char) (hid : ' ' ∉ idc)
    (hl : ' ' ∉ lab) (hu : ' ' ∉ ug) (hq : ' ' ∉ ql) :
    splitOnChar ' ' (idc ++ [' ', 'U', 'T', ':', 'Z', ':'] ++ lab
        ++ [' ', 'U', 'G', ':', 'i', ':'] ++ ug
        ++ [' ', 'Q', 'L', ':', 'f', ':'] ++ ql)
      = [idc, ['U', 'T', ':', 'Z', ':'] ++ lab,
          ['U', 'G', ':', 'i', ':'] ++ ug,
          ['Q', 'L', ':', 'f', ':'] ++ ql] := by
  have e1 : idc ++ [' ', 'U', 'T', ':', 'Z', ':'] ++ lab
      ++ [' ', 'U', 'G', ':', 'i', ':'] ++ ug
      ++ [' ', 'Q', 'L', ':', 'f', ':'] ++ ql
      = idc ++ ' ' :: ((['U', 'T', ':', 'Z', ':'] ++ lab)
          ++ ' ' :: ((['U', 'G', ':', 'i', ':'] ++ ug)
            ++ ' ' :: (['Q', 'L', ':', 'f', ':'] ++ ql))) := by
    simp [List.cons_append, List.append_assoc]
  rw [e1, splitOnChar_append _ _ _ hid,
    splitOnChar_append _ _ _ (not_mem_append_chars (by decide) hl),
    splitOnChar_append _ _ _ (not_mem_append_chars (by decide) hu),
    splitOnChar_of_not_mem _ _ (not_mem_append_chars (by decide) hq)]

/-- Claim C9 (amended): re-parsing the identifier emitted by
`add_metadata` recovers the original identifier, the group ordinal, and
the read-type tag for every read type; the member count is recovered
exactly for consensus (`CON_n`) and original (`ORIG_i_OF_n`) tags — it is
not encoded for singleton or ignored reads — and the `QL` field is
present exactly when the read type is singleton or consensus. -/
theorem add_metadata_round_trip (r : Record) (umiGroup : ℕ)
    (rt : ReadType) (gi gs : ℕ) (q : ℚ) (hid : ' ' ∉ r.id) :
    parseMetadata ((r.addMetadata umiGroup rt gi gs q).id)
      = some ⟨r.id, tagOf rt gi gs, umiGroup,
          if rt = .original ∨ rt = .ignored then none
          else some (fixed2 q)⟩ := by
  rw [Record.addMetadata]
  dsimp only
  by_cases hrt : rt = .original ∨ rt = .ignored
  · rw [if_pos hrt, if_pos hrt, List.append_nil]
    have hsplit := splitMeta3 r.id (readTypeLabel rt gi gs)
      (natToChars umiGroup) hid (space_not_mem_label rt gi gs)
      (space_not_mem_natToChars _)
    unfold parseMetadata
    rw [hsplit]
    dsimp only
    rw [parseTok_append]
    dsimp only
    rw [parseLabel_readTypeLabel]
    dsimp only
    rw [parseTok_append]
    dsimp only
    rw [charsToNat_natToChars]
  · rw [if_neg hrt, if_neg hrt, ← List.append_assoc]
    have hsplit := splitMeta4 r.id (readTypeLabel rt gi gs)
      (natToChars umiGroup) (fixed2 q) hid (space_not_mem_label rt gi gs)
      (space_not_mem_natToChars _) (space_not_mem_fixed2 q)
    unfold parseMetadata
    rw [hsplit]
    dsimp only
    rw [parseTok_append]
    dsimp only
    rw [parseLabel_readTypeLabel]
    dsimp only
    rw [parseTok_append]
    dsimp only
    rw [parseTok_append]
    dsimp only
    rw [charsToNat_natToChars]

theorem add_metadata_round_trip_witness :
    parseMetadata ((Record.addMetadata ⟨['x'], [], []⟩ 9 .consensus
        4 5 7).id)
      = some ⟨['x'], ParsedTag.con 5, 9, some (fixed2 7)⟩ := by
  have h := add_metadata_round_trip ⟨['x'], [], []⟩ 9 .consensus 4 5 7
    (by decide)
  simpa using h

/-- Claim C9 counterexample: the identifier emitted for an `Ignored` read
does not encode the member count at all — groups of size 2 and size 3
produce byte-identical identifiers — so no parser can recover the member
count for every read type, refuting the claim as stated. -/
theorem add_metadata_ignored_loses_member_count :
    (Record.addMetadata ⟨['x'], [], []⟩ 0 .ignored 0 2 0).id
      = (Record.addMetadata ⟨['x'], [], []⟩ 0 .ignored 0 3 0).id
    ∧ (2 : ℕ) ≠ 3 := by
  exact ⟨rfl, by decide⟩

/-- Claim C10: `phred_quality` computes `(x as u32) - 33u32` with no
lower-bound check.  For quality bytes all in `[33, 256)` the wrapping map
agrees with the true Phred score `x - 33`; for a byte `x < 33` the
release-mode result wraps around to `2^32 - (33 - x)` — a value of at
least `2^32 - 33` — instead of an error (in debug mode the subtraction
panics), so `phred_quality`, `phred_quality_total` and
`phred_quality_avg` are meaningful only under the precondition that every
quality byte is at least 33 (ASCII `'!'`). -/
theorem phred_quality_wrapping_subtraction (r : Record) :
    ((∀ x ∈ r.qual, 33 ≤ x ∧ x < 256) →
      r.phredQuality = r.qual.map (fun x => x - 33)
        ∧ r.phredQualityTotal = (r.qual.map (fun x => x - 33)).sum)
    ∧ (∀ x ∈ r.qual, x < 33 →
        (2 ^ 32 - (33 - x)) ∈ r.phredQuality
          ∧ 2 ^ 32 - 33 ≤ 2 ^ 32 - (33 - x)) := by
  constructor
  · intro h
    have hm : r.phredQuality = r.qual.map (fun x => x - 33) := by
      rw [Record.phredQuality]
      apply List.map_congr_left
      intro x hx
      have hx' := h x hx
      have e : x + 2 ^ 32 - 33 = (x - 33) + 2 ^ 32 := by omega
      rw [e, Nat.add_mod_right]
      exact Nat.mod_eq_of_lt (by omega)
    exact ⟨hm, by rw [Record.phredQualityTotal, hm]⟩
  · intro x hx hlt
    constructor
    · have e : (x + 2 ^ 32 - 33) % 2 ^ 32 = 2 ^ 32 - (33 - x) := by
        have e1 : x + 2 ^ 32 - 33 = 2 ^ 32 - (33 - x) := by omega
        rw [e1]
        exact Nat.mod_eq_of_lt (by omega)
      rw [Record.phredQuality, ← e]
      exact List.mem_map_of_mem _ hx
    · omega

theorem phred_quality_wrapping_subtraction_witness :
    Record.phredQuality ⟨[], [], [40, 50]⟩ = [7, 17]
    ∧ (2 ^ 32 - 13) ∈ Record.phredQuality ⟨[], [], [20]⟩ := by
  constructor
  · have h := (phred_quality_wrapping_subtraction ⟨[], [], [40, 50]⟩).1
      (by decide)
    rw [h.1]
    rfl
  · exact ((phred_quality_wrapping_subtraction ⟨[], [], [20]⟩).2 20
      (by decide) (by decide)).1

end Consensus
